import Mathlib

/-!
Verification of the object-table / delayed-write serialization core
(`src/lib.rs` of the `serialize` crate).

The development shallowly embeds the Rust code:

* machine integers (`u32`, `u64`) become `Nat` with explicit `% 2^32` /
  `% 2^64` truncation where the Rust code truncates;
* the abstract `Encoder` (sink) and `Decoder` (source) traits have no
  concrete implementation in the repository, so an in-memory byte-stream
  backend is modelled from the spec (§6 EXTERNAL INTERFACES): a byte list
  plus a cursor, little-endian fixed-width reads/writes;
* `EncodableObject` implementations are deep-embedded as an object graph
  mapping each `ObjectUid` (a `u64`) to the list of primitive encoding
  actions its `encode_contents` performs;
* `DecodableObject` implementations are deep-embedded as decode programs;
* Rust panics (out-of-range indexing, reads past the end of the stream)
  become `Option.none`;
* the encoding state carries two ghost fields, `trace` (the order in which
  `encode_contents` invocations happened) and `refs` (the (uid, index)
  pairs emitted at reference sites), used only to state counting and
  ordering properties; they never influence control flow.
-/

/-! ### Little-endian byte strings -/

/-- `toLEBytes k v` is the `k`-byte little-endian encoding of `v`
(truncating `v` to `k` bytes, as the fixed-width Rust emit operations do). -/
def toLEBytes : Nat → Nat → List Nat
  | 0, _ => []
  | k + 1, v => (v % 256) :: toLEBytes k (v / 256)

/-- Read back a little-endian byte string (each byte taken mod 256). -/
def fromLEBytes : List Nat → Nat
  | [] => 0
  | b :: rest => b % 256 + 256 * fromLEBytes rest

/-! ### The Sink (write-side byte-stream backend)

Modelled from the spec: the repository only declares the `Encoder` trait
(`position`, `emit_u32`, `emit_u64`, `finalize`); no concrete backend is in
`src/`.  Following §6 of the spec we model an in-memory sink: the data
written so far, `position` = current write offset, fixed-width little-endian
emit operations. -/

structure Sink where
  data : List Nat
deriving DecidableEq, Repr

def Sink.position (s : Sink) : Nat := s.data.length

def Sink.emit_u32 (s : Sink) (value : Nat) : Sink :=
  ⟨s.data ++ toLEBytes 4 value⟩

def Sink.emit_u64 (s : Sink) (value : Nat) : Sink :=
  ⟨s.data ++ toLEBytes 8 value⟩

/-! ### The Source (read-side byte-stream backend)

Modelled from the spec (§6): cursor get/set plus fixed-width reads
mirroring the sink's emit operations.  A read past the end of the data
(which a real backend would turn into a panic or I/O error) is `none`. -/

structure Source where
  data : List Nat
  pos : Nat
deriving DecidableEq, Repr

def Source.position (s : Source) : Nat := s.pos

def Source.set_position (s : Source) (position : Nat) : Source :=
  { s with pos := position }

def Source.read_u32 (s : Source) : Option (Nat × Source) :=
  if s.pos + 4 ≤ s.data.length then
    some (fromLEBytes ((s.data.drop s.pos).take 4), { s with pos := s.pos + 4 })
  else none

def Source.read_u64 (s : Source) : Option (Nat × Source) :=
  if s.pos + 8 ≤ s.data.length then
    some (fromLEBytes ((s.data.drop s.pos).take 8), { s with pos := s.pos + 8 })
  else none

/-! ### The encoding engine (`EncodingContext` in `src/lib.rs`)

`ObjectUid` is a `u64` and `ObjectTableIndex` a `u32`; both are modelled as
`Nat` (the index is truncated with `% 2^32` exactly where the Rust code
performs `as u32`).  The `HashMap<ObjectUid, ObjectTableIndex>` is modelled
as an association list (`lookupUid` finds the first matching key; inserts
append, and the code only inserts a key that is absent, so the model agrees
with the hash map).

`EncodableObject` implementations are deep-embedded by an `ObjGraph`: an
object handle is its uid, `object_uid` is the identity, and
`encode_contents` performs the list of primitive actions
`ObjGraph.contents uid`. -/

/-- `u64::max_value()`, the sentinel pushed for a not-yet-written entry. -/
def sentinel : Nat := 2 ^ 64 - 1

/-- One primitive step an `Encodable` implementation may perform against
the encoding context: emit a `u32`, emit a `u64`, or encode a reference to
an `EncodableObject` (identified by its uid). -/
inductive EncAction where
  | emitU32 (v : Nat)
  | emitU64 (v : Nat)
  | encodeObject (uid : Nat)
deriving DecidableEq, Repr

/-- Deep embedding of the `EncodableObject` implementations in scope:
`contents uid` is the action list run by that object's `encode_contents`. -/
structure ObjGraph where
  contents : Nat → List EncAction

/-- The mutable state behind `EncodingContext` (and the session fields it
borrows).  `trace` and `refs` are ghost instrumentation: `trace` records
each `encode_contents` invocation (by uid, in order), `refs` records every
(uid, table index) pair emitted at a reference site.  Neither is read by
any operation. -/
structure EncState where
  encoder : Sink
  object_table_indices : List (Nat × Nat)
  object_table : List Nat
  delayed_writes : List (Nat × Nat)
  trace : List Nat
  refs : List (Nat × Nat)
deriving DecidableEq, Repr

/-- HashMap lookup, modelled on the association list. -/
def lookupUid : List (Nat × Nat) → Nat → Option Nat
  | [], _ => none
  | (k, v) :: rest, uid => if k = uid then some v else lookupUid rest uid

/-- `EncodingContext::get_object_table_index`: on a hit return the mapped
index; on a miss allocate `object_table.len() as u32` (the `as u32` is the
`% 2^32`), record the mapping, and push the sentinel entry. -/
def get_object_table_index (s : EncState) (object_uid : Nat) : (Nat × Bool) × EncState :=
  match lookupUid s.object_table_indices object_uid with
  | some index => ((index, false), s)
  | none =>
    let index := s.object_table.length % 2 ^ 32
    ((index, true),
     { s with
        object_table_indices := s.object_table_indices ++ [(object_uid, index)],
        object_table := s.object_table ++ [sentinel] })

/-- `EncodingContext::enqueue_object_encoding`: push onto the delayed-write
queue (a `Vec`, so pushes go at the back). -/
def enqueue_object_encoding (s : EncState) (object_table_index : Nat) (uid : Nat) : EncState :=
  { s with delayed_writes := s.delayed_writes ++ [(uid, object_table_index)] }

/-- `EncodingContext::encode_object`: look up or allocate the table index,
emit it as a `u32`, and enqueue the object if this was its first
reference.  The ghost `refs` field records the emitted pair. -/
def encode_object (s : EncState) (uid : Nat) : EncState :=
  match get_object_table_index s uid with
  | ((object_table_index, is_new), s1) =>
    let s2 := { s1 with
                 encoder := s1.encoder.emit_u32 object_table_index,
                 refs := s1.refs ++ [(uid, object_table_index)] }
    if is_new then enqueue_object_encoding s2 object_table_index uid else s2

/-- Run one primitive action of an `Encodable` implementation. -/
def runAction (s : EncState) : EncAction → EncState
  | .emitU32 v => { s with encoder := s.encoder.emit_u32 v }
  | .emitU64 v => { s with encoder := s.encoder.emit_u64 v }
  | .encodeObject uid => encode_object s uid

/-- Run an `Encodable` implementation (a list of primitive actions). -/
def runActions (s : EncState) : List EncAction → EncState
  | [] => s
  | a :: rest => runActions (runAction s a) rest

/-- `Vec::pop`: remove and return the last element. -/
def popBack : List α → Option (α × List α)
  | [] => none
  | x :: xs =>
    match popBack xs with
    | none => some (x, [])
    | some (y, rest) => some (y, x :: rest)

/-- `EncodingContext::write_enqueued_objects`: loop; pop the most recently
queued (object, index) pair; if the queue was empty, stop; otherwise record
the sink position, run the object's `encode_contents`, then patch
`object_table[index]` with the recorded position.  The loop is given fuel
(`none` = fuel exhausted); the Rust loop has no fuel bound, and the claims
are settled at sufficient fuel. -/
def write_enqueued_objects (g : ObjGraph) : Nat → EncState → Option EncState
  | 0, _ => none
  | fuel + 1, s =>
    match popBack s.delayed_writes with
    | none => some s
    | some ((uid, object_table_index), rest) =>
      let position := s.encoder.position
      let s1 := runActions
        { s with delayed_writes := rest, trace := s.trace ++ [uid] }
        (g.contents uid)
      write_enqueued_objects g fuel
        { s1 with object_table := s1.object_table.set object_table_index position }

/-- `EncodingSession::encode`: create a fresh empty delayed-write queue,
run the encodable, then drain the queue. -/
def EncodingSession.encode (g : ObjGraph) (fuel : Nat) (s : EncState)
    (encodable : List EncAction) : Option EncState :=
  write_enqueued_objects g fuel (runActions { s with delayed_writes := [] } encodable)

/-- `EncodingSession::finalize`: record the sink position as the object
table address, emit every object table entry as a `u64` (no check of any
kind is performed on the entries), and hand (address, sink) to the
backend's `finalize` (which is abstract; the `four_cc` tag is passed
through to it unchanged, so it is not modelled). -/
def EncodingSession.finalize (s : EncState) : Nat × Sink :=
  let object_table_address := s.encoder.position
  (object_table_address,
   s.object_table.foldl (fun e object_table_entry => e.emit_u64 object_table_entry) s.encoder)

/-- A fresh `EncodingSession` (`EncodingSession::new`). -/
def emptyState : EncState :=
  { encoder := ⟨[]⟩, object_table_indices := [], object_table := [],
    delayed_writes := [], trace := [], refs := [] }

/-! ### Value codecs from the source (`impl Encodable/Decodable for ...`) -/

/-- `impl Encodable for u64`: `emit_u64(*self)`. -/
def encodeU64 (v : Nat) (ecx : Sink) : Sink := ecx.emit_u64 v

/-- `impl Decodable for u64`: `read_u64()`. -/
def decodeU64 (context : Source) : Option (Nat × Source) := context.read_u64

/-- The `Ast` fixture type (`struct Ast { id: u64 }`). -/
structure Ast where
  id : Nat
deriving DecidableEq, Repr

/-- `impl Encodable for Ast`: encode the `id` field. -/
def Ast.encode (a : Ast) (ecx : Sink) : Sink := encodeU64 a.id ecx

/-- `impl Decodable for Ast`: `Ast { id: decode(context) }`. -/
def Ast.decode (context : Source) : Option (Ast × Source) :=
  (decodeU64 context).map fun p => ({ id := p.1 }, p.2)

/-- `impl Encodable for Option<T>`: `None` emits the `u32` 0; `Some(value)`
emits the `u32` 1 followed by `value`'s encoding.  Generic over the element
encoder, mirroring the `T: Encodable<ECX>` bound. -/
def encodeOption (encT : α → Sink → Sink) : Option α → Sink → Sink
  | none, ecx => ecx.emit_u32 0
  | some value, ecx => encT value (ecx.emit_u32 1)

/-- `impl Decodable for Option<T>`: read a `u32` discriminant; `0` is
`None`; any other value decodes a payload and wraps it in `Some`. -/
def decodeOption (decT : Source → Option (α × Source)) (context : Source) :
    Option (Option α × Source) :=
  (context.read_u32).bind fun p =>
    if p.1 = 0 then some (none, p.2)
    else (decT p.2).map fun q => (some q.1, q.2)

/-! ### The decoding engine (`DecodingContext` in `src/lib.rs`)

`DecodableObject` implementations are deep-embedded as `DProg` programs;
`decode_object` is parameterized by the interpreter used for the referenced
object's `decode_contents` (mirroring the `T: DecodableObject<DCX>` trait
dispatch). -/

/-- Deep embedding of the decoding side of `Decodable` implementations. -/
inductive DProg where
  | readU64
  | readU32
  | objectRef (contents : DProg)
  | pair (a b : DProg)
deriving DecidableEq, Repr

/-- Values produced by running a `DProg`. -/
inductive DVal where
  | u64V (v : Nat)
  | u32V (v : Nat)
  | pairV (a b : DVal)
deriving DecidableEq, Repr

/-- `DecodingContext` state: the (already fully loaded) object table and
the source. -/
structure DecState where
  object_table : List Nat
  source : Source
deriving DecidableEq, Repr

/-- `DecodingContext::decode_object`, parameterized by the interpreter
`interp` that runs the referenced object's `decode_contents`: read a `u32`
table index; look the address up in the object table (a Rust `Vec` index
expression, which panics — `none` — when out of range); save the current
read position; seek to the address; run `decode_contents`; restore the
saved position. -/
def decode_object (interp : DProg → DecState → Option (DVal × DecState))
    (contents : DProg) (st : DecState) : Option (DVal × DecState) :=
  (st.source.read_u32).bind fun p =>
    let object_table_index := p.1
    let src1 := p.2
    if h : object_table_index < st.object_table.length then
      let address := st.object_table.get ⟨object_table_index, h⟩
      let current_position := src1.position
      (interp contents { st with source := src1.set_position address }).map fun q =>
        (q.1, { q.2 with source := q.2.source.set_position current_position })
    else none

/-- Fuel-indexed interpreter for `DProg` (the fuel bounds the nesting depth
of object references; a real run of the Rust code corresponds to a large
enough fuel). -/
def runDecode : Nat → DProg → DecState → Option (DVal × DecState)
  | 0, _, _ => none
  | fuel + 1, prog, st =>
    match prog with
    | .readU64 => (st.source.read_u64).map fun p => (.u64V p.1, { st with source := p.2 })
    | .readU32 => (st.source.read_u32).map fun p => (.u32V p.1, { st with source := p.2 })
    | .objectRef contents => decode_object (runDecode fuel) contents st
    | .pair a b =>
      (runDecode fuel a st).bind fun p =>
        (runDecode fuel b p.2).map fun q => (.pairV p.1 q.1, q.2)

/-! ### Counting helpers, the session invariant, and concrete fixtures -/

/-- Number of entries of an association list (or of the delayed-write
queue) whose key / object uid is `uid`. -/
def keyCount (l : List (Nat × Nat)) (uid : Nat) : Nat :=
  (l.map Prod.fst).count uid

/-- 1 when `uid` has an identity-table mapping in `s`, else 0. -/
def uidIndicator (s : EncState) (uid : Nat) : Nat :=
  if (lookupUid s.object_table_indices uid).isSome then 1 else 0

/-- The session invariant tying the identity table, the delayed-write
queue and the ghost instrumentation together: a mapped uid is pending or
already written exactly once (an unmapped one neither), the identity table
has exactly one entry per mapped uid, and every reference ever emitted for
a uid carries the index the identity table (still) maps it to. -/
def SessionInv (s : EncState) : Prop :=
  ∀ uid : Nat,
    keyCount s.delayed_writes uid + s.trace.count uid = uidIndicator s uid
    ∧ keyCount s.object_table_indices uid = uidIndicator s uid
    ∧ ∀ idx : Nat, (uid, idx) ∈ s.refs → lookupUid s.object_table_indices uid = some idx

/-- The two-object reference cycle of the spec's cycle-termination
scenario: object 0's contents reference object 1 and vice versa. -/
def cycleGraph : ObjGraph :=
  ⟨fun uid => if uid = 0 then [.encodeObject 1]
    else if uid = 1 then [.encodeObject 0] else []⟩

/-- A graph in which every object's contents is a single `u64` emit. -/
def dedupGraph : ObjGraph := ⟨fun _ => [.emitU64 7]⟩

/-- The state produced by encoding `[encodeObject 5, encodeObject 5]`
against `dedupGraph` from a fresh session. -/
def dedupResult : EncState :=
  { encoder := ⟨[0, 0, 0, 0, 0, 0, 0, 0, 7, 0, 0, 0, 0, 0, 0, 0]⟩,
    object_table_indices := [(5, 0)],
    object_table := [8],
    delayed_writes := [],
    trace := [5],
    refs := [(5, 0), (5, 0)] }

/-- An identity table holding `2^32` uids, uid `i` mapped to index `i`
(the shape a session reaches after discovering `2^32` distinct objects). -/
def bigMap : List (Nat × Nat) := (List.range (2 ^ 32)).map fun i => (i, i)

/-- A session state whose object table has `u32::MAX + 1` (all resolved)
entries. -/
def bigState : EncState :=
  { encoder := ⟨[]⟩, object_table_indices := bigMap,
    object_table := List.replicate (2 ^ 32) 0,
    delayed_writes := [], trace := [], refs := [] }

/-- A session state in which object 7 was referenced (table entry 0
allocated) but its contents were never written: the entry still holds the
sentinel. -/
def unresolvedSession : EncState :=
  { encoder := ⟨[]⟩, object_table_indices := [(7, 0)],
    object_table := [sentinel],
    delayed_writes := [], trace := [], refs := [(7, 0)] }

/-- A one-pending-object state used to exercise one drain iteration. -/
def drainDemoState : EncState :=
  { encoder := ⟨[]⟩, object_table_indices := [(9, 0)],
    object_table := [sentinel],
    delayed_writes := [(9, 0)], trace := [], refs := [(9, 0)] }

/-- A decode state: stream = reference u32 `0` followed by the `u64` 99
at offset 4; object table maps index 0 to offset 4. -/
def cexDecState : DecState :=
  { object_table := [4],
    source := ⟨toLEBytes 4 0 ++ toLEBytes 8 99, 0⟩ }

/-! ## Theorems -/

/-! ### Byte-string and backend lemmas -/

theorem toLEBytes_length (k v : Nat) : (toLEBytes k v).length = k := by
  induction k generalizing v with
  | zero => rfl
  | succ k ih => simp [toLEBytes, ih]

theorem fromLEBytes_toLEBytes (k v : Nat) :
    fromLEBytes (toLEBytes k v) = v % 2 ^ (8 * k) := by
  induction k generalizing v with
  | zero => simp [toLEBytes, fromLEBytes, Nat.mod_one]
  | succ k ih =>
    have h256 : (2 : Nat) ^ (8 * (k + 1)) = 256 * 2 ^ (8 * k) := by
      rw [Nat.mul_succ, Nat.pow_add]; ring
    rw [toLEBytes, fromLEBytes, ih, h256, Nat.mod_mul]
    omega

theorem Source.read_u32_append (pre post : List Nat) (v : Nat) :
    Source.read_u32 ⟨pre ++ (toLEBytes 4 v ++ post), pre.length⟩
      = some (v % 2 ^ 32, ⟨pre ++ (toLEBytes 4 v ++ post), pre.length + 4⟩) := by
  have hlen : (toLEBytes 4 v).length = 4 := toLEBytes_length 4 v
  have hcond : pre.length + 4 ≤ (pre ++ (toLEBytes 4 v ++ post)).length := by
    simp only [List.length_append, hlen]; omega
  have hdrop : (pre ++ (toLEBytes 4 v ++ post)).drop pre.length
      = toLEBytes 4 v ++ post := List.drop_left pre _
  have htake : ((toLEBytes 4 v ++ post).take 4) = toLEBytes 4 v := by
    conv in (List.take 4 _) => rw [show (4 : Nat) = (toLEBytes 4 v).length from hlen.symm]
    exact List.take_left _ _
  rw [Source.read_u32, if_pos hcond, hdrop, htake, fromLEBytes_toLEBytes]

theorem Source.read_u64_append (pre post : List Nat) (v : Nat) :
    Source.read_u64 ⟨pre ++ (toLEBytes 8 v ++ post), pre.length⟩
      = some (v % 2 ^ 64, ⟨pre ++ (toLEBytes 8 v ++ post), pre.length + 8⟩) := by
  have hlen : (toLEBytes 8 v).length = 8 := toLEBytes_length 8 v
  have hcond : pre.length + 8 ≤ (pre ++ (toLEBytes 8 v ++ post)).length := by
    simp only [List.length_append, hlen]; omega
  have hdrop : (pre ++ (toLEBytes 8 v ++ post)).drop pre.length
      = toLEBytes 8 v ++ post := List.drop_left pre _
  have htake : ((toLEBytes 8 v ++ post).take 8) = toLEBytes 8 v := by
    conv in (List.take 8 _) => rw [show (8 : Nat) = (toLEBytes 8 v).length from hlen.symm]
    exact List.take_left _ _
  rw [Source.read_u64, if_pos hcond, hdrop, htake, fromLEBytes_toLEBytes]

theorem Source.read_u32_some (s : Source) (v : Nat) (s' : Source)
    (h : s.read_u32 = some (v, s')) : s' = { s with pos := s.pos + 4 } := by
  rw [Source.read_u32] at h
  split at h
  · simp only [Option.some.injEq, Prod.mk.injEq] at h
    exact h.2.symm
  · simp at h

theorem Source.read_u64_some (s : Source) (v : Nat) (s' : Source)
    (h : s.read_u64 = some (v, s')) : s' = { s with pos := s.pos + 8 } := by
  rw [Source.read_u64] at h
  split at h
  · simp only [Option.some.injEq, Prod.mk.injEq] at h
    exact h.2.symm
  · simp at h

/-! ### `popBack` (Vec::pop) lemmas -/

theorem popBack_eq_none {α : Type} : ∀ l : List α, popBack l = none ↔ l = [] := by
  intro l
  cases l with
  | nil => simp [popBack]
  | cons x xs =>
    rw [popBack]
    cases popBack xs <;> simp

theorem popBack_append_singleton {α : Type} (l : List α) (x : α) :
    popBack (l ++ [x]) = some (x, l) := by
  induction l with
  | nil => rfl
  | cons y ys ih => rw [List.cons_append, popBack, ih]

theorem popBack_eq_some {α : Type} :
    ∀ (l rest : List α) (x : α), popBack l = some (x, rest) → l = rest ++ [x] := by
  intro l
  induction l with
  | nil => intro rest x h; simp [popBack] at h
  | cons y ys ih =>
    intro rest x h
    rw [popBack] at h
    cases hp : popBack ys with
    | none =>
      rw [hp] at h
      have hys : ys = [] := (popBack_eq_none ys).mp hp
      simp only [Option.some.injEq, Prod.mk.injEq] at h
      simp [hys, ← h.1, ← h.2]
    | some p =>
      rw [hp] at h
      simp only [Option.some.injEq, Prod.mk.injEq] at h
      have := ih p.2 p.1 (by rw [hp])
      subst this
      simp [← h.1, ← h.2]

/-! ### `lookupUid` / `keyCount` lemmas -/

theorem lookupUid_append (m : List (Nat × Nat)) (p : Nat × Nat) (u : Nat) :
    lookupUid (m ++ [p]) u
      = match lookupUid m u with
        | some i => some i
        | none => if p.1 = u then some p.2 else none := by
  induction m with
  | nil => simp [lookupUid]
  | cons q rest ih =>
    obtain ⟨k, v⟩ := q
    by_cases hk : k = u <;> simp [lookupUid, hk, ih]

theorem lookupUid_append_of_some (m : List (Nat × Nat)) (p : Nat × Nat) (u i : Nat)
    (h : lookupUid m u = some i) : lookupUid (m ++ [p]) u = some i := by
  rw [lookupUid_append, h]

theorem lookupUid_append_self (m : List (Nat × Nat)) (u i : Nat)
    (h : lookupUid m u = none) : lookupUid (m ++ [(u, i)]) u = some i := by
  rw [lookupUid_append, h]; simp

theorem lookupUid_append_other (m : List (Nat × Nat)) (p : Nat × Nat) (u : Nat)
    (h : p.1 ≠ u) : lookupUid (m ++ [p]) u = lookupUid m u := by
  rw [lookupUid_append]
  cases lookupUid m u <;> simp [h]

theorem keyCount_append (l₁ l₂ : List (Nat × Nat)) (u : Nat) :
    keyCount (l₁ ++ l₂) u = keyCount l₁ u + keyCount l₂ u := by
  simp [keyCount, List.count_append]

theorem keyCount_singleton (p : Nat × Nat) (u : Nat) :
    keyCount [p] u = if p.1 = u then 1 else 0 := by
  by_cases h : p.1 = u <;> simp [keyCount, List.count_singleton, h]

theorem lookupUid_map_pair_eq_none (l : List Nat) (u : Nat) (h : u ∉ l) :
    lookupUid (l.map fun i => (i, i)) u = none := by
  induction l with
  | nil => rfl
  | cons x xs ih =>
    simp only [List.mem_cons, not_or] at h
    simp only [List.map_cons, lookupUid]
    rw [if_neg (fun hx => h.1 hx.symm), ih h.2]

/-! ### Characterizing `encode_object` -/

theorem encode_object_hit (s : EncState) (uid idx : Nat)
    (h : lookupUid s.object_table_indices uid = some idx) :
    encode_object s uid
      = { s with encoder := s.encoder.emit_u32 idx,
                 refs := s.refs ++ [(uid, idx)] } := by
  unfold encode_object get_object_table_index
  rw [h]
  rfl

theorem encode_object_miss (s : EncState) (uid : Nat)
    (h : lookupUid s.object_table_indices uid = none) :
    encode_object s uid
      = { s with
          encoder := s.encoder.emit_u32 (s.object_table.length % 2 ^ 32),
          object_table_indices :=
            s.object_table_indices ++ [(uid, s.object_table.length % 2 ^ 32)],
          object_table := s.object_table ++ [sentinel],
          delayed_writes :=
            s.delayed_writes ++ [(uid, s.object_table.length % 2 ^ 32)],
          refs := s.refs ++ [(uid, s.object_table.length % 2 ^ 32)] } := by
  unfold encode_object get_object_table_index enqueue_object_encoding
  rw [h]
  rfl

/-! ### Invariant preservation -/

theorem uidIndicator_eq (s : EncState) (u : Nat) :
    uidIndicator s u
      = if (lookupUid s.object_table_indices u).isSome then 1 else 0 := rfl

theorem sessionInv_hit_step (s : EncState) (uid0 idx : Nat) (e' : Sink)
    (hl : lookupUid s.object_table_indices uid0 = some idx) (h : SessionInv s) :
    SessionInv { s with encoder := e', refs := s.refs ++ [(uid0, idx)] } := by
  intro u
  obtain ⟨h1, h2, h3⟩ := h u
  refine ⟨h1, h2, ?_⟩
  intro i hi
  simp only [List.mem_append, List.mem_singleton] at hi
  rcases hi with hold | hnew
  · exact h3 i hold
  · rw [Prod.mk.injEq] at hnew
    rw [hnew.1, hnew.2]
    exact hl

theorem sessionInv_miss_step (s : EncState) (uid0 idx0 : Nat) (e' : Sink) (t' : List Nat)
    (hl : lookupUid s.object_table_indices uid0 = none) (h : SessionInv s) :
    SessionInv { s with
      encoder := e',
      object_table_indices := s.object_table_indices ++ [(uid0, idx0)],
      object_table := t',
      delayed_writes := s.delayed_writes ++ [(uid0, idx0)],
      refs := s.refs ++ [(uid0, idx0)] } := by
  intro u
  obtain ⟨h1, h2, h3⟩ := h u
  by_cases hu : u = uid0
  · subst hu
    have hlook : lookupUid (s.object_table_indices ++ [(u, idx0)]) u = some idx0 :=
      lookupUid_append_self _ _ _ hl
    have hz1 : keyCount s.delayed_writes u + List.count u s.trace = 0 := by
      rw [h1]; simp [uidIndicator, hl]
    have hz2 : keyCount s.object_table_indices u = 0 := by
      rw [h2]; simp [uidIndicator, hl]
    refine ⟨?_, ?_, ?_⟩
    · rw [uidIndicator_eq]
      simp only [keyCount_append, keyCount_singleton, hlook, Option.isSome_some,
        if_true, if_pos rfl]
      omega
    · rw [uidIndicator_eq]
      simp only [keyCount_append, keyCount_singleton, hlook, Option.isSome_some,
        if_true, if_pos rfl]
      omega
    · intro i hi
      simp only [List.mem_append, List.mem_singleton] at hi
      rcases hi with hold | hnew
      · exact absurd (h3 i hold) (by simp [hl])
      · rw [Prod.mk.injEq] at hnew
        rw [hnew.2]
        exact hlook
  · have hne : (uid0, idx0).1 ≠ u := fun he => hu he.symm
    have hlook : lookupUid (s.object_table_indices ++ [(uid0, idx0)]) u
        = lookupUid s.object_table_indices u := lookupUid_append_other _ _ _ hne
    refine ⟨?_, ?_, ?_⟩
    · rw [uidIndicator_eq]
      simp only [keyCount_append, keyCount_singleton, hlook]
      rw [if_neg hne]
      rw [uidIndicator_eq] at h1
      omega
    · rw [uidIndicator_eq]
      simp only [keyCount_append, keyCount_singleton, hlook]
      rw [if_neg hne]
      rw [uidIndicator_eq] at h2
      omega
    · intro i hi
      simp only [List.mem_append, List.mem_singleton] at hi
      rcases hi with hold | hnew
      · rw [hlook]
        exact h3 i hold
      · rw [Prod.mk.injEq] at hnew
        exact absurd hnew.1 hu

theorem sessionInv_encode_object (s : EncState) (uid0 : Nat) (h : SessionInv s) :
    SessionInv (encode_object s uid0) := by
  cases hl : lookupUid s.object_table_indices uid0 with
  | some idx =>
    rw [encode_object_hit s uid0 idx hl]
    exact sessionInv_hit_step s uid0 idx _ hl h
  | none =>
    rw [encode_object_miss s uid0 hl]
    exact sessionInv_miss_step s uid0 _ _ _ hl h

theorem sessionInv_runAction (s : EncState) (a : EncAction) (h : SessionInv s) :
    SessionInv (runAction s a) := by
  cases a with
  | emitU32 v => exact h
  | emitU64 v => exact h
  | encodeObject uid => exact sessionInv_encode_object s uid h

theorem sessionInv_runActions (s : EncState) (l : List EncAction) (h : SessionInv s) :
    SessionInv (runActions s l) := by
  induction l generalizing s with
  | nil => exact h
  | cons a rest ih => exact ih _ (sessionInv_runAction s a h)

theorem sessionInv_pop_step (s : EncState) (uid0 idx0 : Nat) (rest : List (Nat × Nat))
    (hq : s.delayed_writes = rest ++ [(uid0, idx0)]) (h : SessionInv s) :
    SessionInv { s with delayed_writes := rest, trace := s.trace ++ [uid0] } := by
  intro u
  obtain ⟨h1, h2, h3⟩ := h u
  rw [hq, keyCount_append, keyCount_singleton] at h1
  refine ⟨?_, h2, h3⟩
  show keyCount rest u + List.count u (s.trace ++ [uid0]) = uidIndicator s u
  rw [List.count_append]
  by_cases hu : uid0 = u
  · subst hu
    rw [if_pos rfl] at h1
    have hcount : List.count uid0 [uid0] = 1 := by simp
    rw [hcount]
    omega
  · rw [if_neg (show ¬((uid0, idx0).1 = u) from hu)] at h1
    have hcount : List.count u [uid0] = 0 :=
      List.count_eq_zero.mpr (by simp; exact fun he => hu he.symm)
    rw [hcount]
    omega

/-- The invariant does not mention the object table or the encoder, so
patching / emitting leaves it intact. -/
theorem sessionInv_set_table (s : EncState) (t : List Nat) (h : SessionInv s) :
    SessionInv { s with object_table := t } := h

theorem sessionInv_empty : SessionInv emptyState := by
  intro u
  refine ⟨?_, ?_, ?_⟩
  · simp [keyCount, emptyState, uidIndicator, lookupUid]
  · simp [keyCount, emptyState, uidIndicator, lookupUid]
  · intro i hi
    simp [emptyState] at hi

/-! ### Drain-loop lemmas -/

theorem write_enqueued_objects_queue_empty (g : ObjGraph) :
    ∀ (fuel : Nat) (s s' : EncState),
      write_enqueued_objects g fuel s = some s' → s'.delayed_writes = [] := by
  intro fuel
  induction fuel with
  | zero => intro s s' h; simp [write_enqueued_objects] at h
  | succ fuel ih =>
    intro s s' h
    rw [write_enqueued_objects] at h
    cases hp : popBack s.delayed_writes with
    | none =>
      rw [hp] at h
      cases h
      exact (popBack_eq_none _).mp hp
    | some x =>
      obtain ⟨⟨uid0, idx0⟩, rest⟩ := x
      rw [hp] at h
      exact ih _ _ h

theorem sessionInv_write_enqueued_objects (g : ObjGraph) :
    ∀ (fuel : Nat) (s s' : EncState), SessionInv s →
      write_enqueued_objects g fuel s = some s' → SessionInv s' := by
  intro fuel
  induction fuel with
  | zero => intro s s' _ h; simp [write_enqueued_objects] at h
  | succ fuel ih =>
    intro s s' hInv h
    rw [write_enqueued_objects] at h
    cases hp : popBack s.delayed_writes with
    | none =>
      rw [hp] at h
      cases h
      exact hInv
    | some x =>
      obtain ⟨⟨uid0, idx0⟩, rest⟩ := x
      rw [hp] at h
      have hq := popBack_eq_some _ _ _ hp
      exact ih _ _
        (sessionInv_set_table _ _
          (sessionInv_runActions _ _ (sessionInv_pop_step s uid0 idx0 rest hq hInv))) h

theorem sessionInv_encode (g : ObjGraph) (fuel : Nat) (s s' : EncState)
    (hInv : SessionInv { s with delayed_writes := [] })
    (h : EncodingSession.encode g fuel s prog = some s') : SessionInv s' :=
  sessionInv_write_enqueued_objects g fuel _ s'
    (sessionInv_runActions _ prog hInv) h

/-! ### Decode-side preservation lemmas -/

theorem runDecode_preserves :
    ∀ (fuel : Nat) (prog : DProg) (st : DecState) (v : DVal) (st' : DecState),
      runDecode fuel prog st = some (v, st') →
      st'.source.data = st.source.data ∧ st'.object_table = st.object_table := by
  intro fuel
  induction fuel with
  | zero => intro prog st v st' h; simp [runDecode] at h
  | succ fuel ih =>
    intro prog st v st' h
    cases prog with
    | readU64 =>
      rw [runDecode] at h
      cases hr : st.source.read_u64 with
      | none => rw [hr] at h; simp at h
      | some p =>
        rw [hr] at h
        simp only [Option.map_some', Option.some.injEq, Prod.mk.injEq] at h
        have := Source.read_u64_some _ _ _ hr
        rw [← h.2, this]
        exact ⟨rfl, rfl⟩
    | readU32 =>
      rw [runDecode] at h
      cases hr : st.source.read_u32 with
      | none => rw [hr] at h; simp at h
      | some p =>
        rw [hr] at h
        simp only [Option.map_some', Option.some.injEq, Prod.mk.injEq] at h
        have := Source.read_u32_some _ _ _ hr
        rw [← h.2, this]
        exact ⟨rfl, rfl⟩
    | pair a b =>
      rw [runDecode] at h
      cases ha : runDecode fuel a st with
      | none => rw [ha] at h; simp at h
      | some p =>
        rw [ha] at h
        simp only [Option.some_bind] at h
        cases hb : runDecode fuel b p.2 with
        | none => rw [hb] at h; simp at h
        | some q =>
          rw [hb] at h
          simp only [Option.map_some', Option.some.injEq, Prod.mk.injEq] at h
          obtain ⟨ha1, ha2⟩ := ih a st p.1 p.2 (by rw [ha])
          obtain ⟨hb1, hb2⟩ := ih b p.2 q.1 q.2 (by rw [hb])
          rw [← h.2]
          exact ⟨hb1.trans ha1, hb2.trans ha2⟩
    | objectRef contents =>
      rw [runDecode, decode_object] at h
      cases hr : st.source.read_u32 with
      | none => rw [hr] at h; simp at h
      | some p =>
        rw [hr] at h
        simp only [Option.some_bind] at h
        by_cases hlt : p.1 < st.object_table.length
        · rw [dif_pos hlt] at h
          cases hc : runDecode fuel contents
              { st with source := p.2.set_position (st.object_table.get ⟨p.1, hlt⟩) } with
          | none => rw [hc] at h; simp at h
          | some q =>
            rw [hc] at h
            simp only [Option.map_some', Option.some.injEq, Prod.mk.injEq] at h
            obtain ⟨hc1, hc2⟩ := ih contents _ q.1 q.2 (by rw [hc])
            have hrs := Source.read_u32_some _ _ _ hr
            rw [← h.2]
            refine ⟨?_, hc2⟩
            show q.2.source.data = st.source.data
            rw [hc1, hrs]
            rfl
        · rw [dif_neg hlt] at h
          simp at h

/-! ### Finalize lemmas -/

theorem foldl_emit_u64_data (l : List Nat) (e : Sink) :
    (l.foldl (fun acc entry => acc.emit_u64 entry) e).data
      = e.data ++ (l.map fun entry => toLEBytes 8 entry).flatten := by
  induction l generalizing e with
  | nil => simp
  | cons x xs ih =>
    rw [List.foldl_cons, ih]
    simp [Sink.emit_u64, List.append_assoc]

/-! ## Claim theorems -/

/-- Claim C1, counterexample: in a session whose object table holds
`2^32` entries, the next `encode_object` on a fresh uid records a mapping
to index `0` — the table length truncated to `u32` — and not to the table
length itself, refuting "a new Table Index equal to the current Object
Table length is allocated". -/
theorem encode_object_alloc_index_cex :
    lookupUid bigState.object_table_indices (2 ^ 32) = none
    ∧ lookupUid (encode_object bigState (2 ^ 32)).object_table_indices (2 ^ 32) = some 0
    ∧ (0 : Nat) ≠ bigState.object_table.length := by
  have hmem : (2 ^ 32 : Nat) ∉ List.range (2 ^ 32) :=
    fun hc => absurd (List.mem_range.mp hc) (lt_irrefl _)
  have hfresh0 : lookupUid bigMap (2 ^ 32) = none :=
    lookupUid_map_pair_eq_none (List.range (2 ^ 32)) (2 ^ 32) hmem
  have hfresh : lookupUid bigState.object_table_indices (2 ^ 32) = none := by
    simp only [bigState]
    exact hfresh0
  have hlen0 : (List.replicate (2 ^ 32) (0 : Nat)).length = 2 ^ 32 :=
    List.length_replicate (2 ^ 32) 0
  have hlen : bigState.object_table.length = 2 ^ 32 := by
    simp only [bigState]
    exact hlen0
  refine ⟨hfresh, ?_, ?_⟩
  · rw [encode_object_miss _ _ hfresh]
    show lookupUid (bigState.object_table_indices
        ++ [(2 ^ 32, bigState.object_table.length % 2 ^ 32)]) (2 ^ 32) = some 0
    rw [hlen, Nat.mod_self]
    exact lookupUid_append_self _ _ _ hfresh
  · rw [hlen]
    norm_num

/-- Claim C1 (amended): on every `encode_object` call, if the uid is
unmapped a new index equal to the object table length *truncated to 32
bits* (`len as u32`, equal to the length whenever it is below `2^32`) is
allocated, a sentinel entry is pushed, the uid-to-index mapping is
recorded, the (object, index) pair is enqueued at the back of the queue,
and the index is emitted into the sink as a fixed-width u32 with none of
the object's contents written (the sink grows by exactly the 4 index
bytes); if the uid is mapped, the existing index is emitted and nothing
else changes. -/
theorem encode_object_spec (s : EncState) (uid : Nat) :
    (∀ idx : Nat, lookupUid s.object_table_indices uid = some idx →
      encode_object s uid
        = { s with encoder := s.encoder.emit_u32 idx,
                   refs := s.refs ++ [(uid, idx)] })
    ∧ (lookupUid s.object_table_indices uid = none →
      encode_object s uid
        = { s with
            encoder := s.encoder.emit_u32 (s.object_table.length % 2 ^ 32),
            object_table_indices :=
              s.object_table_indices ++ [(uid, s.object_table.length % 2 ^ 32)],
            object_table := s.object_table ++ [sentinel],
            delayed_writes :=
              s.delayed_writes ++ [(uid, s.object_table.length % 2 ^ 32)],
            refs := s.refs ++ [(uid, s.object_table.length % 2 ^ 32)] }) :=
  ⟨fun idx h => encode_object_hit s uid idx h, fun h => encode_object_miss s uid h⟩

/-- Claim C1 witness: both branches of `encode_object_spec` evaluated at
concrete states. -/
theorem encode_object_spec_witness :
    (lookupUid drainDemoState.object_table_indices 9 = some 0
      ∧ encode_object drainDemoState 9
        = { drainDemoState with
            encoder := drainDemoState.encoder.emit_u32 0,
            refs := drainDemoState.refs ++ [(9, 0)] })
    ∧ (lookupUid emptyState.object_table_indices 5 = none
      ∧ encode_object emptyState 5
        = { emptyState with
            encoder := emptyState.encoder.emit_u32 (emptyState.object_table.length % 2 ^ 32),
            object_table_indices :=
              emptyState.object_table_indices ++ [(5, emptyState.object_table.length % 2 ^ 32)],
            object_table := emptyState.object_table ++ [sentinel],
            delayed_writes :=
              emptyState.delayed_writes ++ [(5, emptyState.object_table.length % 2 ^ 32)],
            refs := emptyState.refs ++ [(5, emptyState.object_table.length % 2 ^ 32)] }) :=
  ⟨⟨rfl, (encode_object_spec drainDemoState 9).1 0 rfl⟩,
   ⟨rfl, (encode_object_spec emptyState 5).2 rfl⟩⟩

/-- Claim C2, counterexample: `finalize` invoked on a session whose only
object table entry still holds the sentinel does not abort — there is no
error path in the code — and writes the sentinel value itself
(`u64::MAX`) into the stream. -/
theorem finalize_emits_sentinel_cex :
    unresolvedSession.object_table = [sentinel]
    ∧ (EncodingSession.finalize unresolvedSession).2.data = toLEBytes 8 sentinel :=
  ⟨rfl, rfl⟩

/-- Claim C2 (amended): `finalize` performs no unresolved-entry check of
any kind: it returns the sink position as the table address and
unconditionally emits every object table entry — sentinel entries
included — into the stream. -/
theorem finalize_unconditionally_emits_table (s : EncState) :
    (EncodingSession.finalize s).1 = s.encoder.position
    ∧ (EncodingSession.finalize s).2.data
      = s.encoder.data ++ (s.object_table.map fun entry => toLEBytes 8 entry).flatten :=
  ⟨rfl, foldl_emit_u64_data _ _⟩

/-- Claim C9: a newly allocated table index is the object table length
truncated with `as u32`: when the uid is fresh and the table length is at
least `2^32` (i.e. exceeds `u32::MAX`), the allocated index equals
`length % 2^32`, which is strictly below the length — it names an
already-existing (hence already-assigned) table slot, so patching that
index later overwrites that earlier entry — and the uid is nevertheless
recorded as newly mapped to the truncated index. -/
theorem get_object_table_index_truncates (s : EncState) (uid : Nat)
    (hfresh : lookupUid s.object_table_indices uid = none)
    (hbig : 2 ^ 32 ≤ s.object_table.length) :
    (get_object_table_index s uid).1.1 = s.object_table.length % 2 ^ 32
    ∧ (get_object_table_index s uid).1.1 < s.object_table.length
    ∧ (get_object_table_index s uid).1.2 = true
    ∧ lookupUid (get_object_table_index s uid).2.object_table_indices uid
        = some (s.object_table.length % 2 ^ 32) := by
  unfold get_object_table_index
  rw [hfresh]
  refine ⟨rfl, ?_, rfl, ?_⟩
  · exact lt_of_lt_of_le (Nat.mod_lt _ (by positivity)) hbig
  · exact lookupUid_append_self _ _ _ hfresh

/-- Claim C9 witness: the session with a `2^32`-entry object table: the
next allocation for the fresh uid `2^32` yields index `0 = 2^32 % 2^32`,
colliding with slot 0. -/
theorem get_object_table_index_truncates_witness :
    lookupUid bigState.object_table_indices (2 ^ 32) = none
    ∧ 2 ^ 32 ≤ bigState.object_table.length
    ∧ (get_object_table_index bigState (2 ^ 32)).1.1
        = bigState.object_table.length % 2 ^ 32
    ∧ (get_object_table_index bigState (2 ^ 32)).1.1 < bigState.object_table.length := by
  have hmem : (2 ^ 32 : Nat) ∉ List.range (2 ^ 32) :=
    fun hc => absurd (List.mem_range.mp hc) (lt_irrefl _)
  have hfresh0 : lookupUid bigMap (2 ^ 32) = none :=
    lookupUid_map_pair_eq_none (List.range (2 ^ 32)) (2 ^ 32) hmem
  have hfresh : lookupUid bigState.object_table_indices (2 ^ 32) = none := by
    simp only [bigState]
    exact hfresh0
  have hlen0 : (List.replicate (2 ^ 32) (0 : Nat)).length = 2 ^ 32 :=
    List.length_replicate (2 ^ 32) 0
  have hbig : 2 ^ 32 ≤ bigState.object_table.length := by
    simp only [bigState]
    exact le_of_eq hlen0.symm
  have h := get_object_table_index_truncates bigState (2 ^ 32) hfresh hbig
  exact ⟨hfresh, hbig, h.1, h.2.1⟩

/-- Claim C3: encoding a two-object reference cycle terminates.
`encode_object` on an already-mapped uid only emits the existing index —
it does not touch the delayed-write queue or the object table, so content
writing is never re-entered — and the top-level encode of the cycle
`0 → 1 → 0` completes (with fuel to spare), producing an object table of
length 2 in which no entry still holds the sentinel. -/
theorem cycle_encoding_terminates :
    (∀ (s : EncState) (uid idx : Nat),
        lookupUid s.object_table_indices uid = some idx →
        encode_object s uid
          = { s with encoder := s.encoder.emit_u32 idx,
                     refs := s.refs ++ [(uid, idx)] })
    ∧ ((EncodingSession.encode cycleGraph 8 emptyState [.encodeObject 0]).map
        fun s' => (s'.object_table.length, s'.object_table.contains sentinel))
        = some (2, false) := by
  refine ⟨fun s uid idx h => encode_object_hit s uid idx h, ?_⟩
  rfl

/-- Claim C3 witness: the hit branch of `cycle_encoding_terminates`
evaluated at the state reached after the dedup scenario. -/
theorem cycle_encoding_terminates_witness :
    lookupUid dedupResult.object_table_indices 5 = some 0
    ∧ encode_object dedupResult 5
      = { dedupResult with
          encoder := dedupResult.encoder.emit_u32 0,
          refs := dedupResult.refs ++ [(5, 0)] } :=
  ⟨rfl, cycle_encoding_terminates.1 dedupResult 5 0 rfl⟩

/-- Claim C6: `write_enqueued_objects` (drainQueue) pops the most
recently queued pair (LIFO, the back of the `Vec`), records the sink's
write position before invoking the object's `encode_contents`, patches
`object_table[index]` with that recorded position after the contents
returned, and stops only on finding the queue empty, re-checking after
every pop (a successful drain always ends with an empty queue even though
contents may enqueue more objects). -/
theorem write_enqueued_objects_spec :
    (∀ (g : ObjGraph) (fuel : Nat) (s s' : EncState),
        write_enqueued_objects g fuel s = some s' → s'.delayed_writes = [])
    ∧ (∀ (g : ObjGraph) (fuel : Nat) (s : EncState)
        (rest : List (Nat × Nat)) (uid idx : Nat),
        s.delayed_writes = rest ++ [(uid, idx)] →
        write_enqueued_objects g (fuel + 1) s
          = write_enqueued_objects g fuel
              (let position := s.encoder.position
               let s1 := runActions
                 { s with delayed_writes := rest, trace := s.trace ++ [uid] }
                 (g.contents uid)
               { s1 with object_table := s1.object_table.set idx position }))
    ∧ (∀ (g : ObjGraph) (fuel : Nat) (s : EncState),
        s.delayed_writes = [] → write_enqueued_objects g (fuel + 1) s = some s) := by
  refine ⟨fun g => write_enqueued_objects_queue_empty g, ?_, ?_⟩
  · intro g fuel s rest uid idx hq
    rw [write_enqueued_objects, hq, popBack_append_singleton]
  · intro g fuel s hq
    rw [write_enqueued_objects, hq]
    rfl

/-- Claim C6 witness: one drain iteration on a state with a single queued
object, plus full-drain emptiness, evaluated concretely. -/
theorem write_enqueued_objects_spec_witness :
    (write_enqueued_objects dedupGraph 2 drainDemoState
          = some { encoder := ⟨[7, 0, 0, 0, 0, 0, 0, 0]⟩,
                   object_table_indices := [(9, 0)], object_table := [0],
                   delayed_writes := [], trace := [9], refs := [(9, 0)] }
      ∧ ({ encoder := ⟨[7, 0, 0, 0, 0, 0, 0, 0]⟩,
           object_table_indices := [(9, 0)], object_table := [0],
           delayed_writes := [], trace := [9],
           refs := [(9, 0)] } : EncState).delayed_writes = [])
    ∧ drainDemoState.delayed_writes = [] ++ [(9, 0)]
    ∧ write_enqueued_objects dedupGraph 2 drainDemoState
        = write_enqueued_objects dedupGraph 1
            (let position := drainDemoState.encoder.position
             let s1 := runActions
               { drainDemoState with delayed_writes := [], trace := drainDemoState.trace ++ [9] }
               (dedupGraph.contents 9)
             { s1 with object_table := s1.object_table.set 0 position })
    ∧ emptyState.delayed_writes = []
    ∧ write_enqueued_objects dedupGraph 1 emptyState = some emptyState := by
  refine ⟨⟨rfl, ?_⟩, rfl, ?_, rfl, ?_⟩
  · exact write_enqueued_objects_spec.1 dedupGraph 2 drainDemoState _ rfl
  · exact write_enqueued_objects_spec.2.1 dedupGraph 1 drainDemoState [] 9 0 rfl
  · exact write_enqueued_objects_spec.2.2 dedupGraph 0 emptyState rfl

/-- Claim C5: in any successful top-level encode from a fresh session,
every uid that was referenced (it appears in the ghost `refs` record of
emitted reference sites) has: a single identity-table entry (exactly one
object-table slot allocated for it), every reference site — in particular
any two distinct ones — carrying one and the same index, namely the one
the identity table maps the uid to (assigned at first discovery and never
remapped), and its `encode_contents` invoked exactly once (its uid occurs
exactly once in the ghost invocation trace). -/
theorem encode_dedup (g : ObjGraph) (fuel : Nat) (prog : List EncAction) (s' : EncState)
    (h : EncodingSession.encode g fuel emptyState prog = some s') :
    ∀ uid idx idx2 : Nat, (uid, idx) ∈ s'.refs → (uid, idx2) ∈ s'.refs →
      idx = idx2
      ∧ lookupUid s'.object_table_indices uid = some idx
      ∧ keyCount s'.object_table_indices uid = 1
      ∧ List.count uid s'.trace = 1 := by
  have hInv : SessionInv s' :=
    sessionInv_encode g fuel emptyState s' sessionInv_empty h
  have hqe : s'.delayed_writes = [] :=
    write_enqueued_objects_queue_empty g fuel _ s' h
  intro uid idx idx2 h1 h2
  obtain ⟨hcnt, hmap, hrefs⟩ := hInv uid
  have e1 : lookupUid s'.object_table_indices uid = some idx := hrefs idx h1
  have e2 : lookupUid s'.object_table_indices uid = some idx2 := hrefs idx2 h2
  refine ⟨Option.some.inj (e1.symm.trans e2), e1, ?_, ?_⟩
  · rw [hmap, uidIndicator_eq, e1]
    rfl
  · rw [hqe] at hcnt
    rw [uidIndicator_eq, e1] at hcnt
    have h0 : keyCount ([] : List (Nat × Nat)) uid = 0 := rfl
    rw [h0] at hcnt
    simpa using hcnt

/-- Claim C5 witness: the spec's concrete dedup scenario — two reference
sites for uid 5 under a fresh session — evaluated, then fed through
`encode_dedup`. -/
theorem encode_dedup_witness :
    EncodingSession.encode dedupGraph 4 emptyState
        [.encodeObject 5, .encodeObject 5] = some dedupResult
    ∧ (5, 0) ∈ dedupResult.refs
    ∧ (0 = 0
        ∧ lookupUid dedupResult.object_table_indices 5 = some 0
        ∧ keyCount dedupResult.object_table_indices 5 = 1
        ∧ List.count 5 dedupResult.trace = 1) :=
  ⟨rfl, by decide,
   encode_dedup dedupGraph 4 [.encodeObject 5, .encodeObject 5] dedupResult rfl
     5 0 0 (by decide) (by decide)⟩

/-- Claim C4, counterexample: on the concrete stream
`[index 0 as u32][the u64 99]` with object table `[4]`, `decode_object`
succeeds and leaves the read position at 4 — the position *after* the
index read — while the position immediately before the call was 0,
refuting "the source's read position equals its position immediately
before the call". -/
theorem decode_object_cursor_cex :
    (decode_object (runDecode 1) DProg.readU64 cexDecState).map
        (fun p => p.2.source.pos) = some 4
    ∧ cexDecState.source.pos = 0
    ∧ (4 : Nat) ≠ 0 :=
  ⟨rfl, rfl, by norm_num⟩

/-- Claim C4 (amended): after every successful `decode_object` call the
source's read position equals the position immediately after the Table
Index was read — the before-call position advanced by the fixed 4-byte
index width — regardless of how deeply the referenced object's own
decoding (any contents program, any fuel) nested further references; the
stream data and the loaded object table are unchanged. -/
theorem decode_object_restores_post_index_position (fuel : Nat) (contents : DProg)
    (st : DecState) (v : DVal) (st' : DecState)
    (h : decode_object (runDecode fuel) contents st = some (v, st')) :
    st'.source.pos = st.source.pos + 4
    ∧ st'.source.data = st.source.data
    ∧ st'.object_table = st.object_table := by
  rw [decode_object] at h
  cases hr : st.source.read_u32 with
  | none => rw [hr] at h; simp at h
  | some p =>
    rw [hr] at h
    simp only [Option.some_bind] at h
    by_cases hlt : p.1 < st.object_table.length
    · rw [dif_pos hlt] at h
      cases hc : runDecode fuel contents
          { st with source := p.2.set_position (st.object_table.get ⟨p.1, hlt⟩) } with
      | none => rw [hc] at h; simp at h
      | some q =>
        rw [hc] at h
        simp only [Option.map_some', Option.some.injEq, Prod.mk.injEq] at h
        obtain ⟨hc1, hc2⟩ := runDecode_preserves fuel contents _ q.1 q.2 (by rw [hc])
        have hrs := Source.read_u32_some _ _ _ hr
        rw [← h.2]
        refine ⟨?_, ?_, hc2⟩
        · show (q.2.source.set_position p.2.position).pos = st.source.pos + 4
          simp only [Source.set_position, Source.position]
          rw [hrs]
        · show (q.2.source.set_position p.2.position).data = st.source.data
          simp only [Source.set_position]
          rw [hc1, hrs]
          rfl
    · rw [dif_neg hlt] at h
      simp at h

/-- Claim C4 witness: the amended cursor property evaluated on the
concrete stream of the counterexample. -/
theorem decode_object_restores_post_index_position_witness :
    decode_object (runDecode 1) DProg.readU64 cexDecState
      = some (DVal.u64V 99, { cexDecState with source := ⟨cexDecState.source.data, 4⟩ })
    ∧ ({ cexDecState with source := ⟨cexDecState.source.data, 4⟩ } : DecState).source.pos
        = cexDecState.source.pos + 4 :=
  ⟨rfl, (decode_object_restores_post_index_position 1 DProg.readU64 cexDecState
      (DVal.u64V 99) _ rfl).1⟩

/-- Claim C8: for every `decode_object` call that reads the u32 index
`idx`, if `idx` is at least the loaded object table's length the call
fails immediately — the table indexing panics, i.e. no value is produced
(`none`) — and if `idx` is in range the lookup succeeds and decoding
proceeds at exactly that entry's offset (with the cursor restored to just
after the index afterwards). -/
theorem decode_object_index_range (fuel : Nat) (contents : DProg) (st : DecState)
    (idx : Nat) (src1 : Source)
    (hread : st.source.read_u32 = some (idx, src1)) :
    (st.object_table.length ≤ idx →
      decode_object (runDecode fuel) contents st = none)
    ∧ (∀ h : idx < st.object_table.length,
        decode_object (runDecode fuel) contents st
          = (runDecode fuel contents
              { st with source := src1.set_position (st.object_table.get ⟨idx, h⟩) }).map
              (fun q => (q.1, { q.2 with source := q.2.source.set_position src1.pos }))) := by
  constructor
  · intro hge
    rw [decode_object, hread]
    simp only [Option.some_bind]
    rw [dif_neg (Nat.not_lt.mpr hge)]
  · intro hlt
    rw [decode_object, hread]
    simp only [Option.some_bind]
    rw [dif_pos hlt]
    rfl

/-- Claim C8 witness: an out-of-range index (0 against an empty table)
fails with no value; the in-range index 0 against table `[4]` decodes the
u64 at offset 4. -/
theorem decode_object_index_range_witness :
    decode_object (runDecode 1) DProg.readU64
        { cexDecState with object_table := [] } = none
    ∧ decode_object (runDecode 1) DProg.readU64 cexDecState
        = (runDecode 1 DProg.readU64
            { cexDecState with
                source := (⟨cexDecState.source.data, 4⟩ : Source).set_position 4 }).map
            (fun q => (q.1, { q.2 with source := q.2.source.set_position 4 })) :=
  ⟨(decode_object_index_range 1 DProg.readU64
      { cexDecState with object_table := [] } 0 ⟨cexDecState.source.data, 4⟩ rfl).1
      (Nat.le_refl 0),
   (decode_object_index_range 1 DProg.readU64 cexDecState 0
      ⟨cexDecState.source.data, 4⟩ rfl).2 (by simp [cexDecState])⟩

/-- Claim C7: round-trip for the value types implemented in the source.
For `u64` (any value below `2^64`) and `Ast`, decoding the bytes produced
by encoding a value `v` — starting at the position where encoding started,
with arbitrary surrounding stream content — yields exactly `v` and leaves
the cursor at the end of `v`'s encoding.  For `Option<T>`, generically in
the element codec: whenever the element codec round-trips (on its valid
values), so does the option codec. -/
theorem roundtrip_u64_ast_option :
    (∀ (pre post : List Nat) (v : Nat), v < 2 ^ 64 →
      decodeU64 ⟨(encodeU64 v ⟨pre⟩).data ++ post, pre.length⟩
        = some (v, ⟨(encodeU64 v ⟨pre⟩).data ++ post, pre.length + 8⟩))
    ∧ (∀ (pre post : List Nat) (a : Ast), a.id < 2 ^ 64 →
      Ast.decode ⟨(Ast.encode a ⟨pre⟩).data ++ post, pre.length⟩
        = some (a, ⟨(Ast.encode a ⟨pre⟩).data ++ post, pre.length + 8⟩))
    ∧ (∀ (α : Type) (decT : Source → Option (α × Source)) (encT : α → Sink → Sink)
        (encBytes : α → List Nat) (validT : α → Prop),
        (∀ (x : α) (e : Sink), (encT x e).data = e.data ++ encBytes x) →
        (∀ (pre post : List Nat) (x : α), validT x →
          decT ⟨pre ++ (encBytes x ++ post), pre.length⟩
            = some (x, ⟨pre ++ (encBytes x ++ post), pre.length + (encBytes x).length⟩)) →
        ∀ (pre post : List Nat) (ov : Option α), (∀ x : α, ov = some x → validT x) →
          decodeOption decT ⟨(encodeOption encT ov ⟨pre⟩).data ++ post, pre.length⟩
            = some (ov, ⟨(encodeOption encT ov ⟨pre⟩).data ++ post,
                         (encodeOption encT ov ⟨pre⟩).data.length⟩)) := by
  have h64 : ∀ (pre post : List Nat) (v : Nat), v < 2 ^ 64 →
      decodeU64 ⟨(encodeU64 v ⟨pre⟩).data ++ post, pre.length⟩
        = some (v, ⟨(encodeU64 v ⟨pre⟩).data ++ post, pre.length + 8⟩) := by
    intro pre post v hv
    have hdata : (encodeU64 v ⟨pre⟩).data ++ post = pre ++ (toLEBytes 8 v ++ post) := by
      simp [encodeU64, Sink.emit_u64]
    rw [decodeU64, hdata, Source.read_u64_append, Nat.mod_eq_of_lt hv]
  refine ⟨h64, ?_, ?_⟩
  · intro pre post a ha
    obtain ⟨aid⟩ := a
    rw [Ast.decode, show Ast.encode ⟨aid⟩ ⟨pre⟩ = encodeU64 aid ⟨pre⟩ from rfl,
      h64 pre post aid ha]
    rfl
  · intro α decT encT encBytes validT hE hT pre post ov hov
    cases ov with
    | none =>
      have hdata : (encodeOption encT (none : Option α) ⟨pre⟩).data ++ post
          = pre ++ (toLEBytes 4 0 ++ post) := by
        simp [encodeOption, Sink.emit_u32]
      have hlen : (encodeOption encT (none : Option α) ⟨pre⟩).data.length
          = pre.length + 4 := by
        simp [encodeOption, Sink.emit_u32, toLEBytes_length]
      rw [decodeOption, hdata, hlen, Source.read_u32_append]
      simp only [Option.some_bind]
      norm_num
    | some x =>
      have hval : validT x := hov x rfl
      have hdata : (encodeOption encT (some x) ⟨pre⟩).data ++ post
          = pre ++ (toLEBytes 4 1 ++ (encBytes x ++ post)) := by
        simp [encodeOption, Sink.emit_u32, hE, List.append_assoc]
      have hlen : (encodeOption encT (some x) ⟨pre⟩).data.length
          = pre.length + 4 + (encBytes x).length := by
        simp [encodeOption, Sink.emit_u32, hE, toLEBytes_length]
        omega
      rw [decodeOption, hdata, hlen, Source.read_u32_append]
      simp only [Option.some_bind]
      rw [if_neg (by norm_num)]
      have hplen : (pre ++ toLEBytes 4 1).length = pre.length + 4 := by
        simp [toLEBytes_length]
      have ht := hT (pre ++ toLEBytes 4 1) post x hval
      rw [List.append_assoc, hplen] at ht
      rw [ht]
      rfl

/-- Claim C7 witness: the u64 round-trip at value 5 and the Option
round-trip at `some 5` with the u64 codec as element codec, the element
hypothesis discharged by the u64 part of the theorem itself. -/
theorem roundtrip_u64_ast_option_witness :
    (5 : Nat) < 2 ^ 64
    ∧ decodeU64 ⟨(encodeU64 5 ⟨[]⟩).data ++ [], List.length ([] : List Nat)⟩
        = some (5, ⟨(encodeU64 5 ⟨[]⟩).data ++ [], List.length ([] : List Nat) + 8⟩)
    ∧ decodeOption decodeU64
        ⟨(encodeOption (fun (v : Nat) e => encodeU64 v e) (some 5) ⟨[]⟩).data ++ [],
          List.length ([] : List Nat)⟩
        = some (some 5,
            ⟨(encodeOption (fun (v : Nat) e => encodeU64 v e) (some 5) ⟨[]⟩).data ++ [],
             (encodeOption (fun (v : Nat) e => encodeU64 v e) (some 5) ⟨[]⟩).data.length⟩) := by
  refine ⟨by norm_num, roundtrip_u64_ast_option.1 [] [] 5 (by norm_num), ?_⟩
  exact roundtrip_u64_ast_option.2.2 Nat decodeU64 (fun v e => encodeU64 v e)
    (fun v => toLEBytes 8 v) (fun v => v < 2 ^ 64)
    (fun x e => rfl)
    (fun pre post x hx => by
      have h := roundtrip_u64_ast_option.1 pre post x hx
      have hd : (encodeU64 x ⟨pre⟩).data ++ post = pre ++ (toLEBytes 8 x ++ post) := by
        simp [encodeU64, Sink.emit_u64]
      have hl : (toLEBytes 8 x).length = 8 := toLEBytes_length 8 x
      rw [hd] at h
      rw [hl]
      exact h)
    [] [] (some 5) (fun x hx => by cases hx; norm_num)

/-- Claim C10: the `Option<T>` decoder treats every nonzero u32
discriminant as `Some` and proceeds to decode the payload, although the
encoder only ever emits discriminant 0 (for `None`) or 1 (for `Some`):
for any tag `d ≠ 0` the decoder accepts a stream starting with `d` that
the encoder can never produce. -/
theorem decodeOption_lenient_tag :
    (∀ (α : Type) (decT : Source → Option (α × Source)) (pre rest : List Nat) (d : Nat),
        d < 2 ^ 32 → d ≠ 0 →
        decodeOption decT ⟨pre ++ (toLEBytes 4 d ++ rest), pre.length⟩
          = (decT ⟨pre ++ (toLEBytes 4 d ++ rest), pre.length + 4⟩).map
              (fun q => (some q.1, q.2)))
    ∧ (∀ (α : Type) (encT : α → Sink → Sink) (encBytes : α → List Nat),
        (∀ (x : α) (e : Sink), (encT x e).data = e.data ++ encBytes x) →
        ∀ (ov : Option α) (e : Sink),
          (encodeOption encT ov e).data
            = e.data
              ++ toLEBytes 4 (match ov with | none => 0 | some _ => 1)
              ++ (match ov with | none => [] | some x => encBytes x)) := by
  constructor
  · intro α decT pre rest d hd hne
    rw [decodeOption, Source.read_u32_append]
    simp only [Option.some_bind]
    rw [Nat.mod_eq_of_lt hd, if_neg hne]
  · intro α encT encBytes hE ov e
    cases ov with
    | none => simp [encodeOption, Sink.emit_u32]
    | some x => simp [encodeOption, Sink.emit_u32, hE, List.append_assoc]

/-- Claim C10 witness: tag 2 — which the encoder can never produce — is
decoded as a `Some`, and the encoder's discriminant for `some 5` is 1. -/
theorem decodeOption_lenient_tag_witness :
    (2 : Nat) < 2 ^ 32
    ∧ (2 : Nat) ≠ 0
    ∧ decodeOption decodeU64 ⟨[] ++ (toLEBytes 4 2 ++ toLEBytes 8 5), List.length ([] : List Nat)⟩
        = (decodeU64 ⟨[] ++ (toLEBytes 4 2 ++ toLEBytes 8 5), List.length ([] : List Nat) + 4⟩).map
            (fun q => (some q.1, q.2))
    ∧ (encodeOption (fun (v : Nat) e => encodeU64 v e) (some 5) ⟨[]⟩).data
        = ([] : List Nat) ++ toLEBytes 4 1 ++ toLEBytes 8 5 := by
  refine ⟨by norm_num, by norm_num, ?_, ?_⟩
  · exact decodeOption_lenient_tag.1 Nat decodeU64 [] (toLEBytes 8 5) 2
      (by norm_num) (by norm_num)
  · have h := decodeOption_lenient_tag.2 Nat (fun v e => encodeU64 v e)
      (fun v => toLEBytes 8 v) (fun x e => rfl) (some 5) ⟨[]⟩
    simpa using h
